import Mathlib

/-!
Shallow embedding of the MistCSS core (src/index.ts): the tree reducer
`visit`, the component model builder `parseInput`, the attribute-matcher
regex scans, and the code generator `render`.  The stylis tokenizer is an
external collaborator; `parseInput` here consumes the node forest that
`compile` produces, matching the documented `{type, props, children}`
contract.  The single-component variant (second document in the source
file) is embedded where a claim depends on it (`singleParseTag`).
-/

namespace Mist

/-- Attribute classification stored in a component's data map:
`string[]` (enum of values) or `true` (boolean, presence-only). -/
inductive AttrSpec where
  | enum (values : List String)
  | boolean
  deriving DecidableEq, Repr

/-- `Component = { tag: string, data: Record<string, string[] | boolean> }`.
The insertion-ordered JS object is modelled as an association list. -/
structure Component where
  tag : String
  data : List (String × AttrSpec)
  deriving DecidableEq, Repr

/-- `Components = Record<string, Component>`, insertion ordered. -/
abbrev Components := List (String × Component)

/-- JS property read `obj[k]`: first binding of `k`, if any. -/
def alookup {α : Type} : List (String × α) → String → Option α
  | [], _ => none
  | (k, v) :: rest, key => if k = key then some v else alookup rest key

/-- JS property write `obj[k] = v`: an existing key keeps its position,
a new key is appended at the end. -/
def aupdate {α : Type} : List (String × α) → String → α → List (String × α)
  | [], key, v => [(key, v)]
  | (k, w) :: rest, key, v =>
      if k = key then (key, v) :: rest else (k, w) :: aupdate rest key v

/-- The character class `[a-z]`. -/
def isLowerAZ (c : Char) : Bool := 'a' ≤ c && c ≤ 'z'

/-- The character class `[a-z-]` of the attribute regexes. -/
def isAttrNameChar (c : Char) : Bool := isLowerAZ c || c == '-'

/-- The character class `\w` of the single-variant tag regex. -/
def isWordChar (c : Char) : Bool := c.isAlphanum || c == '_'

/-- The single-quote character appearing in the enum regex. -/
def quoteChar : Char := Char.ofNat 39

/-- Global replacement of `-([a-z])` by the uppercased group, i.e. the
body of the camelCase conversion (src lines 81-84), one left-to-right
non-overlapping pass. -/
def camelCaseAux : List Char → List Char
  | [] => []
  | '-' :: c :: rest =>
      if isLowerAZ c then c.toUpper :: camelCaseAux rest
      else '-' :: camelCaseAux (c :: rest)
  | c :: rest => c :: camelCaseAux rest

/-- kebab-case → camelCase conversion applied to enum attribute names. -/
def camelCase (s : String) : String := ⟨camelCaseAux s.toList⟩

/-- Global replacement of `(?:^|-)([a-z])` by the uppercased group
(src line 48).  The `^` alternative can only fire at position 0; after
that the scan coincides with the camelCase scan. -/
def pascalCase (s : String) : String :=
  match s.toList with
  | [] => ""
  | c :: rest =>
      if isLowerAZ c then ⟨c.toUpper :: camelCaseAux rest⟩
      else ⟨camelCaseAux (c :: rest)⟩

/-- `String.prototype.replace` with a string pattern: remove the first
occurrence of `pat`, leave the rest unchanged. -/
def removeFirst (pat : List Char) : List Char → List Char
  | [] => []
  | c :: rest =>
      if pat.isPrefixOf (c :: rest) then (c :: rest).drop pat.length
      else c :: removeFirst pat rest

/-- `prop.replace('(.', '').replace(')', '')` followed by the PascalCase
conversion (src lines 46-48). -/
def extractName (prop : String) : String :=
  pascalCase ⟨removeFirst [')'] (removeFirst ['(', '.'] prop.toList)⟩

/-- One attempted match of `\[data-(?<attribute>[a-z-]+)='(?<value>[^']*)'\]`
anchored at the head of `l`.  `[a-z-]+` is greedy and, since `=` is not in
the class, backtracking cannot rescue a failed continuation, so the match
is: literal `[data-`, maximal nonempty `[a-z-]` run, `='`, maximal run of
non-quote characters, `']`.  Returns attribute, value, and the remainder
after the consumed match. -/
def matchEnumAt (l : List Char) : Option (String × String × List Char) :=
  if ("[data-".toList).isPrefixOf l then
    let l1 := l.drop 6
    let name := l1.takeWhile isAttrNameChar
    let l2 := l1.dropWhile isAttrNameChar
    if name.isEmpty then none
    else
      match l2 with
      | '=' :: q :: l3 =>
          if q = quoteChar then
            let v := l3.takeWhile (fun c => c != quoteChar)
            match l3.dropWhile (fun c => c != quoteChar) with
            | q2 :: ']' :: l4 =>
                if q2 = quoteChar then some (⟨name⟩, ⟨v⟩, l4) else none
            | _ => none
          else none
      | _ => none
  else none

/-- Scanning loop for `matchAll` with the enum regex: try each position
left to right; on a match, emit it and resume after the consumed text
(non-overlapping).  Fuel equals the remaining length, which every step
strictly decreases, so it never runs out. -/
def enumScanGo : Nat → List Char → List (String × String)
  | 0, _ => []
  | _ + 1, [] => []
  | fuel + 1, c :: rest =>
      match matchEnumAt (c :: rest) with
      | some (a, v, l4) => (a, v) :: enumScanGo fuel l4
      | none => enumScanGo fuel rest

/-- All matches of `enumDataAttributeRegex` (src line 13), in order. -/
def enumScan (l : List Char) : List (String × String) := enumScanGo l.length l

/-- One attempted match of `\[data-(?<attribute>[a-z-]+)(?=\])` anchored at
the head of `l`: literal `[data-`, maximal nonempty `[a-z-]` run,
lookahead `]` (not consumed).  Returns the attribute and the remainder
starting at the `]`. -/
def matchBoolAt (l : List Char) : Option (String × List Char) :=
  if ("[data-".toList).isPrefixOf l then
    let l1 := l.drop 6
    let name := l1.takeWhile isAttrNameChar
    let l2 := l1.dropWhile isAttrNameChar
    if name.isEmpty then none
    else
      match l2 with
      | ']' :: _ => some (⟨name⟩, l2)
      | _ => none
  else none

/-- Scanning loop for `matchAll` with the boolean regex. -/
def boolScanGo : Nat → List Char → List String
  | 0, _ => []
  | _ + 1, [] => []
  | fuel + 1, c :: rest =>
      match matchBoolAt (c :: rest) with
      | some (a, l2) => a :: boolScanGo fuel l2
      | none => boolScanGo fuel rest

/-- All matches of `booleanDataAttributeRegex` (src line 15), in order. -/
def boolScan (l : List Char) : List String := boolScanGo l.length l

/-- Handling of one enum match (src lines 81-91): camelCase the attribute,
`component.data[k] ||= []` (an existing truthy value — a previous array or
`true` — is kept), then push the value when the entry is an array that
does not already contain it. -/
def applyEnumMatch (d : List (String × AttrSpec)) (attrName value : String) :
    List (String × AttrSpec) :=
  match alookup d (camelCase attrName) with
  | none => d ++ [(camelCase attrName, AttrSpec.enum [value])]
  | some (AttrSpec.enum vs) =>
      if value ∈ vs then d
      else aupdate d (camelCase attrName) (AttrSpec.enum (vs ++ [value]))
  | some AttrSpec.boolean => d

/-- Handling of one boolean match (src line 103):
`component.data[attribute] ||= true` — note: no camelCase conversion, and
any existing (truthy) entry is kept. -/
def applyBoolMatch (d : List (String × AttrSpec)) (attrName : String) :
    List (String × AttrSpec) :=
  match alookup d attrName with
  | none => d ++ [(attrName, AttrSpec.boolean)]
  | some _ => d

/-- Both scans applied to one rule selector (src lines 70-105): all enum
matches first, then all boolean matches. -/
def scanSelector (prop : String) (d : List (String × AttrSpec)) :
    List (String × AttrSpec) :=
  let d1 := (enumScan prop.toList).foldl (fun acc p => applyEnumMatch acc p.1 p.2) d
  (boolScan prop.toList).foldl applyBoolMatch d1

/-- stylis `Element` contract: a node type, props (a string list when the
value is an array, `none` when it is a plain string), and children
(`none` when not an array). -/
inductive Element where
  | mk (etype : String) (props : Option (List String)) (children : Option (List Element))

/-- The tree reducer (src lines 18-32): push `{type, props}` for `@scope`
and `rule` nodes whose props is an array, then recurse into array-valued
children of every node, siblings left to right. -/
def visit : List Element → List (String × List String)
  | [] => []
  | Element.mk t p c :: rest =>
      (match p with
       | some ps => if t = "@scope" ∨ t = "rule" then [(t, ps)] else []
       | none => []) ++
      (match c with
       | some cs => visit cs
       | none => []) ++
      visit rest

/-- Pre-order flattening of a forest: self, then children, then the
remaining siblings. -/
def preorder : List Element → List Element
  | [] => []
  | Element.mk t p c :: rest =>
      Element.mk t p c ::
        ((match c with
          | some cs => preorder cs
          | none => []) ++ preorder rest)

/-- The filtering the reducer performs on a single flattened node. -/
def keepNode : Element → Option (String × List String)
  | Element.mk t (some ps) _ =>
      if t = "@scope" ∨ t = "rule" then some (t, ps) else none
  | Element.mk _ none _ => none

/-- Loop state of `parseInput`: the components built so far and the
`name` cursor (`undefined` before the first scope declaration). -/
structure ParseState where
  components : Components
  current : Option String
  deriving DecidableEq, Repr

/-- The error thrown on a scope declaration without a first prop. -/
def scopeErr : String := "Invalid MistCSS file, no class found in @scope"

/-- One iteration of the loop in `parseInput` (src lines 39-107). -/
def parseStep (st : ParseState) (node : String × List String) :
    Except String ParseState :=
  if node.1 = "@scope" then
    match node.2.head? with
    | none => Except.error scopeErr
    | some prop =>
        Except.ok ⟨aupdate st.components (extractName prop) ⟨"", []⟩,
          some (extractName prop)⟩
  else if node.1 = "rule" then
    match node.2.head?, st.current with
    | none, _ => Except.ok st
    | some _, none => Except.ok st
    | some prop, some name =>
        match alookup st.components name with
        | none => Except.ok st
        | some comp =>
            if (":scope".toList).isSuffixOf prop.toList then
              Except.ok ⟨aupdate st.components name
                ⟨⟨removeFirst ":scope".toList prop.toList⟩, comp.data⟩, some name⟩
            else
              Except.ok ⟨aupdate st.components name
                ⟨comp.tag, scanSelector prop comp.data⟩, some name⟩
  else Except.ok st

/-- The whole loop over the flattened node list. -/
def runNodes : ParseState → List (String × List String) → Except String ParseState
  | st, [] => Except.ok st
  | st, n :: rest =>
      match parseStep st n with
      | Except.error e => Except.error e
      | Except.ok st2 => runNodes st2 rest

/-- `parseInput` (src lines 34-110), taking the external tokenizer's
forest; a thrown `Error` is an `Except.error`. -/
def parseInput (nodes : List Element) : Except String Components :=
  match runNodes ⟨[], none⟩ (visit nodes) with
  | Except.error e => Except.error e
  | Except.ok st => Except.ok st.components

/-- `renderProps` (src lines 112-125). -/
def renderProps (component : Component) : String :=
  String.intercalate "\n" (component.data.map (fun p =>
    match p.2 with
    | AttrSpec.enum vs =>
        p.1 ++ "?: " ++
          String.intercalate " | " (vs.map (fun v => "\x27" ++ v ++ "\x27"))
    | AttrSpec.boolean => "  " ++ p.1 ++ "?: boolean"))

/-- `renderComponent` (src lines 127-154), the template literal written
out with explicit newlines. -/
def renderComponent (components : Components) (name : String) : String :=
  match alookup components name with
  | none => ""
  | some component =>
      "type " ++ name ++ "Props = \x7b\n  children?: React.ReactNode\n  " ++
      renderProps component ++
      "\n\x7d & JSX.IntrinsicElements[\x27" ++ component.tag ++
      "\x27]\n\nexport function " ++ name ++ "(\x7b " ++
      String.intercalate ", "
        ("children" :: component.data.map Prod.fst ++ ["...props"]) ++
      " \x7d: " ++ name ++ "Props) \x7b\n  return (\n    <" ++
      String.intercalate " "
        (component.tag :: "\x7b...props\x7d" ::
          ("className=\x22" ++ name ++ "\x22") ::
          component.data.map (fun p => "data-" ++ p.1 ++ "=\x7b" ++ p.1 ++ "\x7d")) ++
      ">\n      \x7bchildren\x7d\n    </" ++ component.tag ++ ">\n  )\n\x7d\n"

/-- JS `String.prototype.trim`: strip whitespace from both ends. -/
def jsTrim (s : String) : String :=
  ⟨(((s.toList.dropWhile Char.isWhitespace).reverse).dropWhile
    Char.isWhitespace).reverse⟩

/-- `render` (src lines 156-165). -/
def render (name : String) (components : Components) : String :=
  "// Generated by MistCSS, do not modify\nimport \x27./" ++ name ++
    ".mist.css\x27\n\n" ++
  jsTrim (String.intercalate "\n"
    (components.map (fun p => renderComponent components p.1))) ++
  "\n"

/-- The pure content of `createFile` (src lines 167-175): the input is
parsed before anything is rendered or written, so a parse failure
propagates and no output text exists. -/
def createFileOutput (nodes : List Element) (moduleName : String) :
    Except String String :=
  match parseInput nodes with
  | Except.error e => Except.error e
  | Except.ok comps => Except.ok (render moduleName comps)

/-- One attempted match of the single-variant `/(?<tag>\w+):scope/`
anchored at the head of `l`: since `:` is not a word character, the match
is a maximal nonempty `\w` run followed by `:scope`. -/
def matchTagAt (l : List Char) : Option String :=
  let run := l.takeWhile isWordChar
  if run.isEmpty then none
  else if (":scope".toList).isPrefixOf (l.drop run.length) then some ⟨run⟩
  else none

/-- `RegExp.prototype.exec`: the leftmost match of the tag regex. -/
def findTag : List Char → Option String
  | [] => none
  | c :: rest =>
      match matchTagAt (c :: rest) with
      | some t => some t
      | none => findTag rest

/-- Tag-parsing phase of the single-component `parseInput` (second source
document, lines 192-198) — the only statement of that parser that can
fail. -/
def singleParseTag (input : String) : Except String String :=
  match findTag input.toList with
  | none => Except.error "Could not parse tag"
  | some t => Except.ok t

/-- The spec wording of PascalCase after the first letter: every letter
immediately following a hyphen is capitalized, hyphens are removed. -/
def specPascalAux : List Char → List Char
  | [] => []
  | '-' :: c :: rest => c.toUpper :: specPascalAux rest
  | ['-'] => []
  | c :: rest => c :: specPascalAux rest

/-- The spec wording of PascalCase: first letter capitalized, every
letter immediately following a hyphen capitalized, hyphens removed. -/
def specPascal (s : String) : String :=
  match s.toList with
  | [] => ""
  | c :: rest => ⟨c.toUpper :: specPascalAux rest⟩

/-- Continuation of a kebab-case name after a first lowercase letter:
lowercase letters, with single hyphens always followed by a letter. -/
def kebabTail : List Char → Bool
  | [] => true
  | '-' :: c :: rest => isLowerAZ c && kebabTail rest
  | ['-'] => false
  | c :: rest => isLowerAZ c && kebabTail rest

/-- Kebab-case class name: nonempty groups of lowercase letters joined by
single hyphens. -/
def isKebab : List Char → Bool
  | [] => false
  | c :: rest => isLowerAZ c && kebabTail rest

/-- Distinct elements in first-appearance order. -/
def dedupFirst : List String → List String
  | [] => []
  | x :: rest => x :: (dedupFirst rest).filter (fun y => y != x)

/-- The PascalCased names of the scope declarations in a flattened node
list, in document order. -/
def scopeNames (l : List (String × List String)) : List String :=
  l.filterMap (fun n =>
    if n.1 = "@scope" then n.2.head?.map extractName else none)

/-- Whether `pat` occurs as a contiguous run inside `l`. -/
def containsSub (pat : List Char) : List Char → Bool
  | [] => pat.isEmpty
  | c :: rest => pat.isPrefixOf (c :: rest) || containsSub pat rest

/-- Whether component `name` stores attribute `k` as an enum list. -/
def isEnumEntry (comps : Components) (name k : String) : Bool :=
  match alookup comps name with
  | none => false
  | some comp =>
      match alookup comp.data k with
      | some (AttrSpec.enum _) => true
      | _ => false

/-! ### Association-list lemmas -/

theorem alookup_aupdate {α : Type} (k : String) (v : α) :
    ∀ (l : List (String × α)) (q : String),
      alookup (aupdate l k v) q = if q = k then some v else alookup l q := by
  intro l
  induction l with
  | nil =>
      intro q
      by_cases h : q = k <;> simp [aupdate, alookup, h, Ne.symm]
  | cons p rest ih =>
      obtain ⟨a, w⟩ := p
      intro q
      by_cases hk : a = k
      · subst hk
        by_cases hq : q = a
        · simp [aupdate, alookup, hq]
        · simp [aupdate, alookup, hq, Ne.symm hq]
      · by_cases hq : q = a
        · subst hq
          simp [aupdate, alookup, hk, Ne.symm hk]
        · simp [aupdate, alookup, hk, hq, Ne.symm hq, ih q]

theorem alookup_append_of_some {α : Type} {l1 : List (String × α)} {q : String}
    {v : α} (l2 : List (String × α)) (h : alookup l1 q = some v) :
    alookup (l1 ++ l2) q = some v := by
  induction l1 with
  | nil => simp [alookup] at h
  | cons p rest ih =>
      obtain ⟨a, w⟩ := p
      by_cases ha : a = q
      · simp [alookup, ha] at h
        simp [alookup, ha, h]
      · simp [alookup, ha] at h ⊢
        exact ih h

theorem alookup_append_of_none {α : Type} {l1 : List (String × α)} {q : String}
    (l2 : List (String × α)) (h : alookup l1 q = none) :
    alookup (l1 ++ l2) q = alookup l2 q := by
  induction l1 with
  | nil => simp [alookup]
  | cons p rest ih =>
      obtain ⟨a, w⟩ := p
      by_cases ha : a = q
      · simp [alookup, ha] at h
      · simp [alookup, ha] at h ⊢
        exact ih h

theorem aupdate_keys_of_some {α : Type} {l : List (String × α)} {k : String}
    {v : α} (w : α) (h : alookup l k = some v) :
    (aupdate l k w).map Prod.fst = l.map Prod.fst := by
  induction l with
  | nil => simp [alookup] at h
  | cons p rest ih =>
      obtain ⟨a, u⟩ := p
      by_cases ha : a = k
      · simp [aupdate, ha]
      · simp [alookup, ha] at h
        simp [aupdate, ha, ih h]

theorem aupdate_keys_of_none {α : Type} {l : List (String × α)} {k : String}
    (w : α) (h : alookup l k = none) :
    (aupdate l k w).map Prod.fst = l.map Prod.fst ++ [k] := by
  induction l with
  | nil => simp [aupdate]
  | cons p rest ih =>
      obtain ⟨a, u⟩ := p
      by_cases ha : a = k
      · simp [alookup, ha] at h
      · simp [alookup, ha] at h
        simp [aupdate, ha, ih h]

theorem mem_aupdate {α : Type} {l : List (String × α)} {k : String} {v : α}
    {x : String × α} (h : x ∈ aupdate l k v) : x ∈ l ∨ x = (k, v) := by
  induction l with
  | nil => simp [aupdate] at h; simp [h]
  | cons p rest ih =>
      obtain ⟨a, u⟩ := p
      by_cases ha : a = k
      · simp [aupdate, ha] at h
        rcases h with h | h
        · right; simp [h]
        · left; simp [h]
      · simp [aupdate, ha] at h
        rcases h with h | h
        · left; simp [h]
        · rcases ih h with h2 | h2
          · left; simp [h2]
          · right; exact h2

theorem alookup_mem {α : Type} {l : List (String × α)} {q : String} {v : α}
    (h : alookup l q = some v) : (q, v) ∈ l := by
  induction l with
  | nil => simp [alookup] at h
  | cons p rest ih =>
      obtain ⟨a, u⟩ := p
      by_cases ha : a = q
      · simp [alookup, ha] at h
        simp [ha, h]
      · simp [alookup, ha] at h
        simp [ih h]

theorem alookup_eq_none_iff {α : Type} (l : List (String × α)) (q : String) :
    alookup l q = none ↔ q ∉ l.map Prod.fst := by
  induction l with
  | nil => simp [alookup]
  | cons p rest ih =>
      obtain ⟨a, u⟩ := p
      by_cases ha : a = q
      · simp [alookup, ha]
      · simp [alookup, ha, ih, Ne.symm ha]

theorem alookup_append_single_other {α : Type} {q k : String} (h : q ≠ k)
    (d : List (String × α)) (x : α) : alookup (d ++ [(k, x)]) q = alookup d q := by
  induction d with
  | nil => simp [alookup, Ne.symm h]
  | cons p rest ih =>
      obtain ⟨a, w⟩ := p
      by_cases ha : a = q <;> simp [alookup, ha, ih]

/-! ### Attribute-scan step lemmas -/

theorem applyEnumMatch_absent {d : List (String × AttrSpec)} {a : String}
    (v : String) (h : alookup d (camelCase a) = none) :
    alookup (applyEnumMatch d a v) (camelCase a) = some (AttrSpec.enum [v]) := by
  unfold applyEnumMatch
  rw [h]
  rw [alookup_append_of_none _ h]
  simp [alookup]

theorem applyEnumMatch_enum {d : List (String × AttrSpec)} {a : String}
    {vs : List String} (v : String)
    (h : alookup d (camelCase a) = some (AttrSpec.enum vs)) :
    alookup (applyEnumMatch d a v) (camelCase a) =
      some (AttrSpec.enum (if v ∈ vs then vs else vs ++ [v])) := by
  unfold applyEnumMatch
  rw [h]
  by_cases hv : v ∈ vs
  · simp [hv, h]
  · simp [hv, alookup_aupdate]

theorem applyEnumMatch_boolean {d : List (String × AttrSpec)} {a : String}
    (v : String) (h : alookup d (camelCase a) = some AttrSpec.boolean) :
    applyEnumMatch d a v = d := by
  unfold applyEnumMatch
  rw [h]

theorem applyEnumMatch_lookup_other {q : String} {a : String}
    (h : q ≠ camelCase a) (d : List (String × AttrSpec)) (v : String) :
    alookup (applyEnumMatch d a v) q = alookup d q := by
  unfold applyEnumMatch
  cases hl : alookup d (camelCase a) with
  | none => exact alookup_append_single_other h d _
  | some x =>
      cases x with
      | enum vs =>
          by_cases hv : v ∈ vs
          · simp [hv]
          · simp [hv, alookup_aupdate, h]
      | boolean => rfl

theorem applyBoolMatch_absent {d : List (String × AttrSpec)} {a : String}
    (h : alookup d a = none) :
    alookup (applyBoolMatch d a) a = some AttrSpec.boolean := by
  unfold applyBoolMatch
  rw [h]
  rw [alookup_append_of_none _ h]
  simp [alookup]

theorem applyBoolMatch_present {d : List (String × AttrSpec)} {a : String}
    {x : AttrSpec} (h : alookup d a = some x) : applyBoolMatch d a = d := by
  unfold applyBoolMatch
  rw [h]

theorem applyBoolMatch_lookup_other {q a : String} (h : q ≠ a)
    (d : List (String × AttrSpec)) :
    alookup (applyBoolMatch d a) q = alookup d q := by
  unfold applyBoolMatch
  cases hl : alookup d a with
  | none => exact alookup_append_single_other h d _
  | some x => rfl

theorem applyBoolMatch_preserve_some {d : List (String × AttrSpec)}
    {q : String} {x : AttrSpec} (a : String) (h : alookup d q = some x) :
    alookup (applyBoolMatch d a) q = some x := by
  unfold applyBoolMatch
  cases hl : alookup d a with
  | none => exact alookup_append_of_some _ h
  | some y => exact h

theorem enumFold_lookup_other {q : String} (ms : List (String × String))
    (d : List (String × AttrSpec)) (h : ∀ p ∈ ms, camelCase p.1 ≠ q) :
    alookup (ms.foldl (fun acc p => applyEnumMatch acc p.1 p.2) d) q = alookup d q := by
  induction ms generalizing d with
  | nil => rfl
  | cons m rest ih =>
      rw [List.foldl_cons, ih _ (fun p hp => h p (List.mem_cons_of_mem m hp)),
        applyEnumMatch_lookup_other (Ne.symm (h m (List.mem_cons_self m rest)))]

theorem boolFold_preserve_some {q : String} {x : AttrSpec} (ms : List String)
    (d : List (String × AttrSpec)) (h : alookup d q = some x) :
    alookup (ms.foldl applyBoolMatch d) q = some x := by
  induction ms generalizing d with
  | nil => exact h
  | cons m rest ih =>
      rw [List.foldl_cons]
      exact ih _ (applyBoolMatch_preserve_some m h)

theorem boolFold_sets {n : String} (ms : List String)
    (d : List (String × AttrSpec)) (hn : n ∈ ms) (h : alookup d n = none) :
    alookup (ms.foldl applyBoolMatch d) n = some AttrSpec.boolean := by
  induction ms generalizing d with
  | nil => simp at hn
  | cons m rest ih =>
      rw [List.foldl_cons]
      by_cases hm : m = n
      · subst hm
        exact boolFold_preserve_some rest _ (applyBoolMatch_absent h)
      · rcases List.mem_cons.mp hn with h1 | h1
        · exact absurd h1.symm hm
        · have h2 : alookup (applyBoolMatch d m) n = none := by
            rw [applyBoolMatch_lookup_other (Ne.symm hm)]; exact h
          exact ih _ h1 h2

/-! ### Key provenance through the scans -/

theorem keys_applyEnumMatch {q : String} {d : List (String × AttrSpec)}
    {a v : String} (h : q ∈ (applyEnumMatch d a v).map Prod.fst) :
    q ∈ d.map Prod.fst ∨ q = camelCase a := by
  unfold applyEnumMatch at h
  cases hl : alookup d (camelCase a) with
  | none =>
      simp only [hl, List.map_append, List.mem_append] at h
      rcases h with h1 | h1
      · exact Or.inl h1
      · simp at h1
        exact Or.inr h1
  | some x =>
      cases x with
      | enum vs =>
          simp only [hl] at h
          by_cases hv : v ∈ vs
          · rw [if_pos hv] at h
            exact Or.inl h
          · rw [if_neg hv, aupdate_keys_of_some _ hl] at h
            exact Or.inl h
      | boolean =>
          simp only [hl] at h
          exact Or.inl h

theorem keys_enumFold {q : String} (ms : List (String × String))
    (d : List (String × AttrSpec))
    (h : q ∈ ((ms.foldl (fun acc p => applyEnumMatch acc p.1 p.2) d)).map Prod.fst) :
    q ∈ d.map Prod.fst ∨ ∃ p ∈ ms, q = camelCase p.1 := by
  induction ms generalizing d with
  | nil => exact Or.inl h
  | cons m rest ih =>
      rw [List.foldl_cons] at h
      rcases ih _ h with h1 | h1
      · rcases keys_applyEnumMatch h1 with h2 | h2
        · exact Or.inl h2
        · exact Or.inr ⟨m, List.mem_cons_self m rest, h2⟩
      · obtain ⟨p, hp, he⟩ := h1
        exact Or.inr ⟨p, List.mem_cons_of_mem m hp, he⟩

theorem keys_applyBoolMatch {q : String} {d : List (String × AttrSpec)}
    {a : String} (h : q ∈ (applyBoolMatch d a).map Prod.fst) :
    q ∈ d.map Prod.fst ∨ q = a := by
  unfold applyBoolMatch at h
  cases hl : alookup d a with
  | none =>
      simp only [hl, List.map_append, List.mem_append] at h
      rcases h with h1 | h1
      · exact Or.inl h1
      · simp at h1
        exact Or.inr h1
  | some x =>
      simp only [hl] at h
      exact Or.inl h

theorem keys_boolFold {q : String} (ms : List String)
    (d : List (String × AttrSpec))
    (h : q ∈ (ms.foldl applyBoolMatch d).map Prod.fst) :
    q ∈ d.map Prod.fst ∨ q ∈ ms := by
  induction ms generalizing d with
  | nil => exact Or.inl h
  | cons m rest ih =>
      rw [List.foldl_cons] at h
      rcases ih _ h with h1 | h1
      · rcases keys_applyBoolMatch h1 with h2 | h2
        · exact Or.inl h2
        · exact Or.inr (by simp [h2])
      · exact Or.inr (List.mem_cons_of_mem m h1)

/-! ### Enum lists stay duplicate-free -/

/-- Every enum entry of the data map holds a duplicate-free list. -/
def DataNodup (d : List (String × AttrSpec)) : Prop :=
  ∀ k vs, alookup d k = some (AttrSpec.enum vs) → vs.Nodup

theorem dataNodup_nil : DataNodup [] := by
  intro k vs h
  simp [alookup] at h

theorem dataNodup_applyEnumMatch {d : List (String × AttrSpec)} (a v : String)
    (h : DataNodup d) : DataNodup (applyEnumMatch d a v) := by
  intro k vs hk
  by_cases hq : k = camelCase a
  · subst hq
    cases hl : alookup d (camelCase a) with
    | none =>
        rw [applyEnumMatch_absent v hl] at hk
        obtain rfl : vs = [v] := by
          injection hk with hk2
          injection hk2.symm
        exact List.nodup_singleton v
    | some x =>
        cases x with
        | enum vs0 =>
            rw [applyEnumMatch_enum v hl] at hk
            have hvs : vs = if v ∈ vs0 then vs0 else vs0 ++ [v] := by
              injection hk with hk2
              injection hk2.symm
            by_cases hv : v ∈ vs0
            · rw [hvs, if_pos hv]
              exact h _ _ hl
            · rw [hvs, if_neg hv]
              simp [List.nodup_append, h _ _ hl, hv]
        | boolean =>
            rw [applyEnumMatch_boolean v hl] at hk
            exact h _ _ hk
  · rw [applyEnumMatch_lookup_other hq] at hk
    exact h _ _ hk

theorem dataNodup_applyBoolMatch {d : List (String × AttrSpec)} (a : String)
    (h : DataNodup d) : DataNodup (applyBoolMatch d a) := by
  intro k vs hk
  by_cases hq : k = a
  · subst hq
    cases hl : alookup d k with
    | none =>
        rw [applyBoolMatch_absent hl] at hk
        exact absurd hk (by simp)
    | some x =>
        rw [applyBoolMatch_present hl] at hk
        exact h _ _ hk
  · rw [applyBoolMatch_lookup_other hq] at hk
    exact h _ _ hk

theorem dataNodup_enumFold {d : List (String × AttrSpec)}
    (ms : List (String × String)) (h : DataNodup d) :
    DataNodup (ms.foldl (fun acc p => applyEnumMatch acc p.1 p.2) d) := by
  induction ms generalizing d with
  | nil => exact h
  | cons m rest ih =>
      rw [List.foldl_cons]
      exact ih (dataNodup_applyEnumMatch m.1 m.2 h)

theorem dataNodup_boolFold {d : List (String × AttrSpec)} (ms : List String)
    (h : DataNodup d) : DataNodup (ms.foldl applyBoolMatch d) := by
  induction ms generalizing d with
  | nil => exact h
  | cons m rest ih =>
      rw [List.foldl_cons]
      exact ih (dataNodup_applyBoolMatch m h)

theorem dataNodup_scanSelector {d : List (String × AttrSpec)} (prop : String)
    (h : DataNodup d) : DataNodup (scanSelector prop d) :=
  dataNodup_boolFold _ (dataNodup_enumFold _ h)

/-! ### `parseStep` characterizations -/

theorem parseStep_scope (st : ParseState) (p : String) (ps : List String) :
    parseStep st ("@scope", p :: ps) =
      Except.ok ⟨aupdate st.components (extractName p) ⟨"", []⟩,
        some (extractName p)⟩ := rfl

theorem parseStep_scope_empty (st : ParseState) :
    parseStep st ("@scope", []) = Except.error scopeErr := rfl

theorem parseStep_rule_noprop (st : ParseState) :
    parseStep st ("rule", []) = Except.ok st := rfl

theorem parseStep_rule_nocurrent {st : ParseState} (h : st.current = none)
    (props : List String) : parseStep st ("rule", props) = Except.ok st := by
  cases props with
  | nil => rfl
  | cons p ps => simp [parseStep, h]

theorem parseStep_rule_unregistered {st : ParseState} {nm : String}
    (hc : st.current = some nm) (hl : alookup st.components nm = none)
    (p : String) (ps : List String) :
    parseStep st ("rule", p :: ps) = Except.ok st := by
  simp [parseStep, hc, hl]

theorem parseStep_rule_tag {st : ParseState} {nm : String} {comp : Component}
    (hc : st.current = some nm) (hl : alookup st.components nm = some comp)
    {p : String} (ps : List String)
    (hsuf : (":scope".toList).isSuffixOf p.toList = true) :
    parseStep st ("rule", p :: ps) =
      Except.ok ⟨aupdate st.components nm
        ⟨⟨removeFirst ":scope".toList p.toList⟩, comp.data⟩, some nm⟩ := by
  have hs : [':', 's', 'c', 'o', 'p', 'e'] <:+ p.data := by simpa using hsuf
  simp [parseStep, hc, hl, hs]

theorem parseStep_rule_scan {st : ParseState} {nm : String} {comp : Component}
    (hc : st.current = some nm) (hl : alookup st.components nm = some comp)
    {p : String} (ps : List String)
    (hsuf : (":scope".toList).isSuffixOf p.toList = false) :
    parseStep st ("rule", p :: ps) =
      Except.ok ⟨aupdate st.components nm
        ⟨comp.tag, scanSelector p comp.data⟩, some nm⟩ := by
  have hs : ¬([':', 's', 'c', 'o', 'p', 'e'] <:+ p.data) := by
    intro hc2
    have h2 : (":scope".toList).isSuffixOf p.toList = true := by simpa using hc2
    rw [hsuf] at h2
    cases h2
  simp [parseStep, hc, hl, hs]

theorem parseStep_other {st : ParseState} {n : String × List String}
    (h1 : n.1 ≠ "@scope") (h2 : n.1 ≠ "rule") :
    parseStep st n = Except.ok st := by
  simp [parseStep, h1, h2]

/-- Every successful `parseStep` outcome, by branch. -/
theorem parseStep_cases (st : ParseState) (n : String × List String)
    (st2 : ParseState) (h : parseStep st n = Except.ok st2) :
    (∃ p ps, n = ("@scope", p :: ps) ∧
      st2 = ⟨aupdate st.components (extractName p) ⟨"", []⟩,
        some (extractName p)⟩) ∨
    (n.1 ≠ "@scope" ∧ st2 = st) ∨
    (∃ nm comp p ps, n = ("rule", p :: ps) ∧ st.current = some nm ∧
      alookup st.components nm = some comp ∧
      (st2 = ⟨aupdate st.components nm
          ⟨⟨removeFirst ":scope".toList p.toList⟩, comp.data⟩, some nm⟩ ∨
       st2 = ⟨aupdate st.components nm
          ⟨comp.tag, scanSelector p comp.data⟩, some nm⟩)) := by
  obtain ⟨t, props⟩ := n
  by_cases h1 : t = "@scope"
  · subst h1
    cases props with
    | nil =>
        rw [parseStep_scope_empty] at h
        exact absurd h (by simp)
    | cons p ps =>
        rw [parseStep_scope] at h
        injection h with h
        exact Or.inl ⟨p, ps, rfl, h.symm⟩
  · by_cases h2 : t = "rule"
    · subst h2
      cases props with
      | nil =>
          rw [parseStep_rule_noprop] at h
          injection h with h
          exact Or.inr (Or.inl ⟨h1, h.symm⟩)
      | cons p ps =>
          cases hc : st.current with
          | none =>
              rw [parseStep_rule_nocurrent hc] at h
              injection h with h
              exact Or.inr (Or.inl ⟨h1, h.symm⟩)
          | some nm =>
              cases hl : alookup st.components nm with
              | none =>
                  rw [parseStep_rule_unregistered hc hl p ps] at h
                  injection h with h
                  exact Or.inr (Or.inl ⟨h1, h.symm⟩)
              | some comp =>
                  cases hsuf : (":scope".toList).isSuffixOf p.toList with
                  | true =>
                      rw [parseStep_rule_tag hc hl ps hsuf] at h
                      injection h with h
                      exact Or.inr (Or.inr ⟨nm, comp, p, ps, rfl, rfl, hl,
                        Or.inl h.symm⟩)
                  | false =>
                      rw [parseStep_rule_scan hc hl ps hsuf] at h
                      injection h with h
                      exact Or.inr (Or.inr ⟨nm, comp, p, ps, rfl, rfl, hl,
                        Or.inr h.symm⟩)
    · rw [parseStep_other h1 h2] at h
      injection h with h
      exact Or.inr (Or.inl ⟨h1, h.symm⟩)

/-- `parseStep` succeeds on every node except a scope node without a
first prop. -/
theorem parseStep_ok_of_not_badscope (st : ParseState)
    (n : String × List String) (h : ¬(n.1 = "@scope" ∧ n.2 = [])) :
    ∃ st2, parseStep st n = Except.ok st2 := by
  obtain ⟨t, props⟩ := n
  by_cases h1 : t = "@scope"
  · subst h1
    cases props with
    | nil => exact absurd ⟨rfl, rfl⟩ h
    | cons p ps => exact ⟨_, parseStep_scope st p ps⟩
  · by_cases h2 : t = "rule"
    · subst h2
      cases props with
      | nil => exact ⟨st, parseStep_rule_noprop st⟩
      | cons p ps =>
          cases hc : st.current with
          | none => exact ⟨st, parseStep_rule_nocurrent hc _⟩
          | some nm =>
              cases hl : alookup st.components nm with
              | none => exact ⟨st, parseStep_rule_unregistered hc hl p ps⟩
              | some comp =>
                  cases hsuf : (":scope".toList).isSuffixOf p.toList with
                  | true => exact ⟨_, parseStep_rule_tag hc hl ps hsuf⟩
                  | false => exact ⟨_, parseStep_rule_scan hc hl ps hsuf⟩
    · exact ⟨st, parseStep_other h1 h2⟩

theorem runNodes_cons (st : ParseState) (n : String × List String)
    (rest : List (String × List String)) :
    runNodes st (n :: rest) =
      match parseStep st n with
      | Except.error e => Except.error e
      | Except.ok st2 => runNodes st2 rest := rfl

/-- The builder loop fails exactly when the flattened list holds a scope
node without a first prop. -/
theorem runNodes_error_iff (l : List (String × List String)) :
    ∀ st : ParseState, (∃ e, runNodes st l = Except.error e) ↔
      ∃ p ∈ l, p.1 = "@scope" ∧ p.2 = [] := by
  induction l with
  | nil =>
      intro st
      simp [runNodes]
  | cons n rest ih =>
      intro st
      by_cases hbad : n.1 = "@scope" ∧ n.2 = []
      · obtain ⟨t, props⟩ := n
        obtain ⟨h1, h2⟩ := hbad
        simp only at h1 h2
        subst h1
        subst h2
        constructor
        · intro _
          exact ⟨("@scope", []), List.mem_cons_self _ _, rfl, rfl⟩
        · intro _
          refine ⟨scopeErr, ?_⟩
          rw [runNodes_cons, parseStep_scope_empty]
      · obtain ⟨st2, hok⟩ := parseStep_ok_of_not_badscope st n hbad
        have hrun : runNodes st (n :: rest) = runNodes st2 rest := by
          rw [runNodes_cons, hok]
        rw [hrun]
        rw [ih st2]
        constructor
        · intro ⟨p, hp, he⟩
          exact ⟨p, List.mem_cons_of_mem n hp, he⟩
        · intro ⟨p, hp, he⟩
          rcases List.mem_cons.mp hp with h1 | h1
          · exact absurd (h1 ▸ he) hbad
          · exact ⟨p, h1, he⟩

/-! ### Run-level invariants -/

theorem compNodup_runNodes (l : List (String × List String)) :
    ∀ st st2 : ParseState, (∀ p ∈ st.components, DataNodup p.2.data) →
      runNodes st l = Except.ok st2 →
      ∀ p ∈ st2.components, DataNodup p.2.data := by
  induction l with
  | nil =>
      intro st st2 h hr
      obtain rfl : st = st2 := by simpa [runNodes] using hr
      exact h
  | cons n rest ih =>
      intro st st2 h hr
      rw [runNodes_cons] at hr
      cases hp : parseStep st n with
      | error e =>
          rw [hp] at hr
          cases hr
      | ok stm =>
          rw [hp] at hr
          refine ih stm st2 ?_ hr
          rcases parseStep_cases st n stm hp with
            ⟨p, ps, hn, hst⟩ | ⟨hne, hst⟩ | ⟨nm, comp, p, ps, hn, hc, hl, hst⟩
          · subst hst
            intro x hx
            rcases mem_aupdate hx with hx1 | hx1
            · exact h x hx1
            · subst hx1
              exact dataNodup_nil
          · subst hst
            exact h
          · rcases hst with hst | hst <;> subst hst <;> intro x hx
            · rcases mem_aupdate hx with hx1 | hx1
              · exact h x hx1
              · subst hx1
                exact h (nm, comp) (alookup_mem hl)
            · rcases mem_aupdate hx with hx1 | hx1
              · exact h x hx1
              · subst hx1
                exact dataNodup_scanSelector p (h (nm, comp) (alookup_mem hl))

/-- The cursor invariant: whenever the current name is set, it is a key
of the components map. -/
def CurrentRegistered (st : ParseState) : Prop :=
  ∀ nm, st.current = some nm → alookup st.components nm ≠ none

theorem currentRegistered_parseStep {st : ParseState}
    {n : String × List String} {st2 : ParseState} (h : CurrentRegistered st)
    (hp : parseStep st n = Except.ok st2) : CurrentRegistered st2 := by
  rcases parseStep_cases st n st2 hp with
    ⟨p, ps, hn, hst⟩ | ⟨hne, hst⟩ | ⟨nm, comp, p, ps, hn, hc, hl, hst⟩
  · subst hst
    intro q hq
    injection hq with hq
    subst hq
    rw [alookup_aupdate]
    simp
  · subst hst
    exact h
  · rcases hst with hst | hst <;> subst hst <;> intro q hq <;>
      injection hq with hq <;> subst hq <;> rw [alookup_aupdate] <;> simp

theorem currentRegistered_runNodes (l : List (String × List String)) :
    ∀ st st2 : ParseState, CurrentRegistered st →
      runNodes st l = Except.ok st2 → CurrentRegistered st2 := by
  induction l with
  | nil =>
      intro st st2 h hr
      obtain rfl : st = st2 := by simpa [runNodes] using hr
      exact h
  | cons n rest ih =>
      intro st st2 h hr
      rw [runNodes_cons] at hr
      cases hp : parseStep st n with
      | error e =>
          rw [hp] at hr
          cases hr
      | ok stm =>
          rw [hp] at hr
          exact ih stm st2 (currentRegistered_parseStep h hp) hr

/-! ### Keys of the components map -/

/-- The names of `names` that are not yet among `keys`. -/
def filterNew (keys names : List String) : List String :=
  names.filter (fun q => !(keys.contains q))

theorem filterNew_nil_keys (names : List String) :
    filterNew [] names = names := by
  simp [filterNew]

theorem filterNew_filter_ne {keys : List String} {n0 : String}
    (h : n0 ∈ keys) (xs : List String) :
    filterNew keys (xs.filter (fun y => y != n0)) = filterNew keys xs := by
  unfold filterNew
  rw [List.filter_filter]
  apply List.filter_congr
  intro a _
  cases hc : keys.contains a with
  | true => simp
  | false =>
      have ha : a ∉ keys := by simpa using hc
      have hne : a ≠ n0 := fun he => ha (he ▸ h)
      simp [hne]

theorem filterNew_append_single (keys : List String) (n0 : String)
    (xs : List String) :
    filterNew (keys ++ [n0]) xs =
      filterNew keys (xs.filter (fun y => y != n0)) := by
  unfold filterNew
  rw [List.filter_filter]
  apply List.filter_congr
  intro a _
  by_cases hx : a = n0
  · subst hx
    simp
  · simp [hx]

theorem filterNew_cons_of_mem {keys : List String} {q : String}
    (h : q ∈ keys) (xs : List String) :
    filterNew keys (q :: xs) = filterNew keys xs := by
  have hc : keys.contains q = true := by simpa using h
  simp [filterNew, List.filter_cons, hc, h]

theorem filterNew_cons_of_not_mem {keys : List String} {q : String}
    (h : q ∉ keys) (xs : List String) :
    filterNew keys (q :: xs) = q :: filterNew keys xs := by
  have hc : keys.contains q = false := by simpa using h
  simp [filterNew, List.filter_cons, hc, h]

theorem dedupFirst_cons (x : String) (xs : List String) :
    dedupFirst (x :: xs) = x :: (dedupFirst xs).filter (fun y => y != x) := rfl

theorem scopeNames_cons_scope (p : String) (ps : List String)
    (rest : List (String × List String)) :
    scopeNames (("@scope", p :: ps) :: rest) =
      extractName p :: scopeNames rest := by
  simp [scopeNames]

theorem scopeNames_cons_other {n : String × List String} (h : n.1 ≠ "@scope")
    (rest : List (String × List String)) :
    scopeNames (n :: rest) = scopeNames rest := by
  simp [scopeNames, h]

/-- Keys of the built map: the prior keys, then the not-yet-seen scope
names in first-appearance order. -/
theorem runNodes_keys (l : List (String × List String)) :
    ∀ st st2 : ParseState, runNodes st l = Except.ok st2 →
      st2.components.map Prod.fst =
        st.components.map Prod.fst ++
          filterNew (st.components.map Prod.fst) (dedupFirst (scopeNames l)) := by
  induction l with
  | nil =>
      intro st st2 hr
      obtain rfl : st = st2 := by simpa [runNodes] using hr
      simp [scopeNames, dedupFirst, filterNew]
  | cons n rest ih =>
      intro st st2 hr
      rw [runNodes_cons] at hr
      cases hp : parseStep st n with
      | error e =>
          rw [hp] at hr
          cases hr
      | ok stm =>
          rw [hp] at hr
          have hkeys := ih stm st2 hr
          rcases parseStep_cases st n stm hp with
            ⟨p, ps, hn, hst⟩ | ⟨hne, hst⟩ | ⟨nm, comp, p, ps, hn, hc, hl, hst⟩
          · subst hn
            subst hst
            simp only at hkeys
            rw [scopeNames_cons_scope, dedupFirst_cons]
            by_cases hmem : extractName p ∈ st.components.map Prod.fst
            · cases hcc : alookup st.components (extractName p) with
              | none =>
                  exact absurd ((alookup_eq_none_iff _ _).mp hcc) (by simp [hmem])
              | some c =>
                  rw [aupdate_keys_of_some _ hcc] at hkeys
                  rw [filterNew_cons_of_mem hmem, filterNew_filter_ne hmem]
                  exact hkeys
            · have hcc : alookup st.components (extractName p) = none :=
                (alookup_eq_none_iff _ _).mpr hmem
              rw [aupdate_keys_of_none _ hcc] at hkeys
              rw [filterNew_cons_of_not_mem hmem]
              rw [filterNew_append_single] at hkeys
              rw [hkeys]
              simp
          · subst hst
            rw [scopeNames_cons_other hne]
            exact hkeys
          · subst hn
            have hne2 : (("rule", p :: ps) : String × List String).1 ≠ "@scope" := by
              simp
            rcases hst with hst | hst <;> subst hst <;>
              simp only at hkeys <;>
              rw [aupdate_keys_of_some _ hl] at hkeys <;>
              rw [scopeNames_cons_other hne2] <;>
              exact hkeys

/-! ### Bridging `parseInput` and `runNodes` -/

theorem parseInput_def (nodes : List Element) :
    parseInput nodes =
      match runNodes ⟨[], none⟩ (visit nodes) with
      | Except.error e => Except.error e
      | Except.ok st => Except.ok st.components := rfl

theorem parseInput_ok {nodes : List Element} {comps : Components}
    (h : parseInput nodes = Except.ok comps) :
    ∃ st2 : ParseState,
      runNodes ⟨[], none⟩ (visit nodes) = Except.ok st2 ∧
        st2.components = comps := by
  unfold parseInput at h
  cases hr : runNodes ⟨[], none⟩ (visit nodes) with
  | error e =>
      rw [hr] at h
      cases h
  | ok st2 =>
      rw [hr] at h
      injection h with h
      exact ⟨st2, rfl, h⟩

theorem parseInput_error_iff (nodes : List Element) :
    (∃ e, parseInput nodes = Except.error e) ↔
      ∃ e, runNodes ⟨[], none⟩ (visit nodes) = Except.error e := by
  unfold parseInput
  cases hr : runNodes ⟨[], none⟩ (visit nodes) <;> simp

/-! ### The tree reducer versus the pre-order flattening -/

theorem visit_eq_filterMap_preorder (ns : List Element) :
    visit ns = (preorder ns).filterMap keepNode := by
  match ns with
  | [] => simp [visit, preorder]
  | Element.mk t p (some cs) :: rest =>
      have ih1 := visit_eq_filterMap_preorder cs
      have ih2 := visit_eq_filterMap_preorder rest
      cases p with
      | none =>
          simp [visit, preorder, keepNode, List.filterMap_cons,
            List.filterMap_append, ih1, ih2]
      | some ps =>
          by_cases ht : t = "@scope" ∨ t = "rule" <;>
            simp [visit, preorder, keepNode, List.filterMap_cons,
              List.filterMap_append, ih1, ih2, ht]
  | Element.mk t p none :: rest =>
      have ih2 := visit_eq_filterMap_preorder rest
      cases p with
      | none =>
          simp [visit, preorder, keepNode, List.filterMap_cons, ih2]
      | some ps =>
          by_cases ht : t = "@scope" ∨ t = "rule" <;>
            simp [visit, preorder, keepNode, List.filterMap_cons, ih2, ht]
termination_by sizeOf ns

/-! ### PascalCase on kebab-case names agrees with the spec wording -/

theorem kebabTail_cons_ne {c1 : Char} (hc : c1 ≠ '-') (rest : List Char) :
    kebabTail (c1 :: rest) = (isLowerAZ c1 && kebabTail rest) := by
  cases rest with
  | nil => simp [kebabTail, hc]
  | cons c2 r => simp [kebabTail, hc]

theorem camelCaseAux_eq_specPascalAux (l : List Char) :
    kebabTail l = true → camelCaseAux l = specPascalAux l := by
  match l with
  | [] => intro _; rfl
  | [c] =>
      intro h
      by_cases hc : c = '-'
      · subst hc
        simp [kebabTail] at h
      · simp [camelCaseAux, specPascalAux, hc]
  | c1 :: c2 :: rest =>
      intro h
      by_cases hc : c1 = '-'
      · subst hc
        simp only [kebabTail, Bool.and_eq_true] at h
        obtain ⟨h1, h2⟩ := h
        have ih := camelCaseAux_eq_specPascalAux rest h2
        simp [camelCaseAux, specPascalAux, h1, ih]
      · have h2 : kebabTail (c2 :: rest) = true := by
          rw [kebabTail_cons_ne hc] at h
          exact ((Bool.and_eq_true _ _).mp h).2
        have ih := camelCaseAux_eq_specPascalAux (c2 :: rest) h2
        simp [camelCaseAux, specPascalAux, hc, ih]
termination_by l.length

theorem pascalCase_eq_specPascal {s : String} (h : isKebab s.toList = true) :
    pascalCase s = specPascal s := by
  unfold pascalCase specPascal
  cases hs : s.toList with
  | nil => rfl
  | cons c rest =>
      rw [hs] at h
      simp only [isKebab, Bool.and_eq_true] at h
      obtain ⟨h1, h2⟩ := h
      show (if isLowerAZ c = true then (⟨c.toUpper :: camelCaseAux rest⟩ : String)
          else ⟨camelCaseAux (c :: rest)⟩) =
        (⟨c.toUpper :: specPascalAux rest⟩ : String)
      rw [if_pos h1]
      rw [camelCaseAux_eq_specPascalAux rest h2]

/-! ### The single-variant tag regex -/

theorem takeWhile_append_all {p : Char → Bool} (t rest : List Char)
    (ht : ∀ c ∈ t, p c = true) :
    (t ++ rest).takeWhile p = t ++ rest.takeWhile p := by
  induction t with
  | nil => rfl
  | cons c cs ih =>
      have hc : p c = true := ht c (List.mem_cons_self c cs)
      simp only [List.cons_append, List.takeWhile_cons, hc, if_pos]
      rw [ih (fun x hx => ht x (List.mem_cons_of_mem c hx))]

theorem dropWhile_eq_drop_len (p : Char → Bool) (l : List Char) :
    l.dropWhile p = l.drop (l.takeWhile p).length := by
  induction l with
  | nil => rfl
  | cons c rest ih =>
      cases hc : p c <;>
        simp [List.takeWhile_cons, List.dropWhile_cons, hc, ih]

theorem matchTagAt_some_decomp {l : List Char} {t : String}
    (h : matchTagAt l = some t) :
    ∃ post, l = t.toList ++ ":scope".toList ++ post ∧ t.toList ≠ [] ∧
      ∀ ch ∈ t.toList, isWordChar ch = true := by
  simp only [matchTagAt] at h
  by_cases he : (l.takeWhile isWordChar).isEmpty = true
  · rw [if_pos he] at h
    cases h
  · rw [if_neg he] at h
    by_cases hp : (":scope".toList).isPrefixOf
        (l.drop (l.takeWhile isWordChar).length) = true
    · rw [if_pos hp] at h
      injection h with h
      subst h
      obtain ⟨post, hpost⟩ := List.isPrefixOf_iff_prefix.mp hp
      refine ⟨post, ?_, ?_, ?_⟩
      · conv_lhs => rw [← List.takeWhile_append_dropWhile isWordChar l]
        rw [dropWhile_eq_drop_len isWordChar l]
        rw [← hpost]
        simp
      · intro hcon
        rw [show String.toList ⟨l.takeWhile isWordChar⟩ = l.takeWhile isWordChar
          from rfl] at hcon
        rw [hcon] at he
        simp at he
      · intro ch hch
        exact List.mem_takeWhile_imp hch
    · rw [if_neg hp] at h
      cases h

theorem matchTagAt_of_decomp (t post : List Char) (ht : t ≠ [])
    (hw : ∀ ch ∈ t, isWordChar ch = true) :
    matchTagAt (t ++ ":scope".toList ++ post) = some ⟨t⟩ := by
  have hrun : (t ++ ":scope".toList ++ post).takeWhile isWordChar = t := by
    rw [List.append_assoc, takeWhile_append_all t _ hw]
    simp [List.takeWhile_cons, isWordChar]
  simp only [matchTagAt, hrun]
  rw [if_neg (by simpa using ht)]
  rw [List.append_assoc, List.drop_left]
  rw [if_pos (List.isPrefixOf_iff_prefix.mpr (List.prefix_append _ _))]

theorem findTag_cons (c : Char) (rest : List Char) :
    findTag (c :: rest) =
      match matchTagAt (c :: rest) with
      | some t => some t
      | none => findTag rest := rfl

theorem findTag_some_decomp :
    ∀ (l : List Char) (t : String), findTag l = some t →
      ∃ pre post, l = pre ++ t.toList ++ ":scope".toList ++ post ∧
        t.toList ≠ [] ∧ ∀ ch ∈ t.toList, isWordChar ch = true := by
  intro l
  induction l with
  | nil =>
      intro t h
      simp [findTag] at h
  | cons c rest ih =>
      intro t h
      rw [findTag_cons] at h
      cases hm : matchTagAt (c :: rest) with
      | some t2 =>
          rw [hm] at h
          injection h with h
          subst h
          obtain ⟨post, hp, hne, hw⟩ := matchTagAt_some_decomp hm
          exact ⟨[], post, by simpa using hp, hne, hw⟩
      | none =>
          rw [hm] at h
          obtain ⟨pre, post, hp, hne, hw⟩ := ih t h
          exact ⟨c :: pre, post, by simp [hp], hne, hw⟩

theorem findTag_of_decomp :
    ∀ (pre t post : List Char), t ≠ [] →
      (∀ ch ∈ t, isWordChar ch = true) →
      ∃ t2, findTag (pre ++ t ++ ":scope".toList ++ post) = some t2 := by
  intro pre
  induction pre with
  | nil =>
      intro t post ht hw
      cases t with
      | nil => exact absurd rfl ht
      | cons t0 tr =>
          have hm := matchTagAt_of_decomp (t0 :: tr) post ht hw
          refine ⟨⟨t0 :: tr⟩, ?_⟩
          have hform : ([] : List Char) ++ (t0 :: tr) ++ ":scope".toList ++ post =
              t0 :: (tr ++ ":scope".toList ++ post) := by simp
          rw [hform]
          rw [findTag_cons]
          have hm2 : matchTagAt (t0 :: (tr ++ ":scope".toList ++ post)) =
              some ⟨t0 :: tr⟩ := by
            rw [show t0 :: (tr ++ ":scope".toList ++ post) =
              (t0 :: tr) ++ ":scope".toList ++ post by simp]
            exact hm
          rw [hm2]
  | cons c pre2 ih =>
      intro t post ht hw
      obtain ⟨t2, ih2⟩ := ih t post ht hw
      have hform : (c :: pre2) ++ t ++ ":scope".toList ++ post =
          c :: (pre2 ++ t ++ ":scope".toList ++ post) := by simp
      rw [hform, findTag_cons]
      cases hm : matchTagAt (c :: (pre2 ++ t ++ ":scope".toList ++ post)) with
      | some t3 => exact ⟨t3, rfl⟩
      | none => exact ⟨t2, ih2⟩

theorem findTag_none_iff (l : List Char) :
    findTag l = none ↔
      ¬ ∃ pre t post, l = pre ++ t ++ ":scope".toList ++ post ∧ t ≠ [] ∧
        ∀ ch ∈ t, isWordChar ch = true := by
  constructor
  · intro h hcon
    obtain ⟨pre, t, post, heq, ht, hw⟩ := hcon
    obtain ⟨t2, h2⟩ := findTag_of_decomp pre t post ht hw
    rw [heq, h2] at h
    cases h
  · intro h
    cases hf : findTag l with
    | none => rfl
    | some t =>
        obtain ⟨pre, post, heq, hne, hw⟩ := findTag_some_decomp l t hf
        exact absurd ⟨pre, t.toList, post, heq, hne, hw⟩ h

/-! ### Concrete fixtures -/

/-- A scope declaration node as produced by the tokenizer. -/
def scopeNode (s : String) : Element := Element.mk "@scope" (some [s]) none

/-- A style rule node with one selector string. -/
def ruleNode (s : String) : Element := Element.mk "rule" (some [s]) none

/-- A bare matcher for `v`, then an enum matcher for the same attribute. -/
def cexBooleanFirst : List Element :=
  [scopeNode "(.x)", ruleNode "[data-v]", ruleNode "[data-v=\x27a\x27]"]

/-- A bare matcher whose attribute name is kebab-case. -/
def cexHyphenBool : List Element :=
  [scopeNode "(.x)", ruleNode "[data-is-active]"]

/-- A rule node carrying an empty (but array-valued) props list. -/
def cexEmptyProps : List Element := [Element.mk "rule" (some []) none]

/-- A selector that contains `:scope` twice and ends with it. -/
def cexTagTwice : List Element :=
  [scopeNode "(.x)", ruleNode "a:scope-b:scope"]

/-- The spec's enum example: values a, b, then a again. -/
def exDupEnum : List Element :=
  [scopeNode "(.x)", ruleNode "[data-variant=\x27a\x27]",
   ruleNode "[data-variant=\x27b\x27]", ruleNode "[data-variant=\x27a\x27]"]

/-- Scope declarations with a re-declared name. -/
def exThreeScopes : List Element :=
  [scopeNode "(.my-button)", scopeNode "(.other)", scopeNode "(.my-button)"]

/-- A scope declaration node without any prop. -/
def exBadScope : List Element := [Element.mk "@scope" (some []) none]

/-- The spec's end-to-end component model. -/
def demoComponents : Components :=
  [("Card", ⟨"button", [("size", AttrSpec.enum ["sm", "lg"]),
    ("disabled", AttrSpec.boolean)]⟩)]

/-! ### Claim C1 -/

/-- C1 counterexample: under component `X`, the bare matcher `[data-v]`
classifies `v` as Boolean; the later enum matcher `[data-v='a']` does
*not* turn the entry into an Enum list — `data[camel] ||= []` keeps the
truthy `true` — so the entry under the camelCased name is not an Enum
list after the enum matcher is handled, contradicting the claim. -/
theorem c1_counterexample :
    parseInput cexBooleanFirst =
      Except.ok [("X", ⟨"", [("v", AttrSpec.boolean)]⟩)] ∧
    isEnumEntry [("X", ⟨"", [("v", AttrSpec.boolean)]⟩)] "X" "v" = false := by
  constructor
  · have hv : visit cexBooleanFirst =
        [("@scope", ["(.x)"]), ("rule", ["[data-v]"]),
         ("rule", ["[data-v=\x27a\x27]"])] := by
      simp [cexBooleanFirst, scopeNode, ruleNode, visit]
    rw [parseInput_def, hv]
    rfl
  · rfl

/-- C1 (amended): an enum matcher camelCases the attribute name; when the
entry is absent it becomes the Enum list `[value]`; when it is an Enum
list the value is appended at the end only if not already present
(first-seen order); an entry already classified Boolean is left
unchanged; and in every successfully built component every Enum list is
duplicate-free. -/
theorem c1_enum_handling :
    (∀ (d : List (String × AttrSpec)) (a v : String),
      alookup d (camelCase a) = none →
        alookup (applyEnumMatch d a v) (camelCase a) =
          some (AttrSpec.enum [v])) ∧
    (∀ (d : List (String × AttrSpec)) (a v : String) (vs : List String),
      alookup d (camelCase a) = some (AttrSpec.enum vs) →
        alookup (applyEnumMatch d a v) (camelCase a) =
          some (AttrSpec.enum (if v ∈ vs then vs else vs ++ [v]))) ∧
    (∀ (d : List (String × AttrSpec)) (a v : String),
      alookup d (camelCase a) = some AttrSpec.boolean →
        applyEnumMatch d a v = d) ∧
    (∀ (nodes : List Element) (comps : Components) (nc : String × Component)
      (k : String) (vs : List String),
      parseInput nodes = Except.ok comps → nc ∈ comps →
        alookup nc.2.data k = some (AttrSpec.enum vs) → vs.Nodup) := by
  refine ⟨?_, ?_, ?_, ?_⟩
  · intro d a v h
    exact applyEnumMatch_absent v h
  · intro d a v vs h
    exact applyEnumMatch_enum v h
  · intro d a v h
    exact applyEnumMatch_boolean v h
  · intro nodes comps nc k vs hp hm hk
    obtain ⟨st2, hrun, hcomps⟩ := parseInput_ok hp
    have hinv := compNodup_runNodes (visit nodes) ⟨[], none⟩ st2
      (by intro p hp2; simp at hp2) hrun
    rw [hcomps] at hinv
    exact hinv nc hm k vs hk

/-- C1 witness: the spec's own example run — matchers for `variant='a'`,
`variant='b'`, `variant='a'` again yield the duplicate-free list
`['a','b']`. -/
theorem c1_witness :
    parseInput exDupEnum =
      Except.ok [("X", ⟨"", [("variant", AttrSpec.enum ["a", "b"])]⟩)] ∧
    (["a", "b"] : List String).Nodup := by
  have hv : visit exDupEnum =
      [("@scope", ["(.x)"]), ("rule", ["[data-variant=\x27a\x27]"]),
       ("rule", ["[data-variant=\x27b\x27]"]),
       ("rule", ["[data-variant=\x27a\x27]"])] := by
    simp [exDupEnum, scopeNode, ruleNode, visit]
  have hres : parseInput exDupEnum =
      Except.ok [("X", ⟨"", [("variant", AttrSpec.enum ["a", "b"])]⟩)] := by
    rw [parseInput_def, hv]
    rfl
  refine ⟨hres, ?_⟩
  exact c1_enum_handling.2.2.2 exDupEnum
    [("X", ⟨"", [("variant", AttrSpec.enum ["a", "b"])]⟩)]
    ("X", ⟨"", [("variant", AttrSpec.enum ["a", "b"])]⟩)
    "variant" ["a", "b"] hres (by simp) rfl

/-! ### Claim C2 -/

/-- C2: a bare `[data-name]` matcher yields Boolean and never Enum: the
boolean scan sets the entry to Boolean only when it is absent, never
overwrites an existing entry (in particular an Enum one), and an
attribute with a bare matcher whose key no enum matcher of the same
selector produces ends up Boolean regardless of matcher order inside
the selector, because the enum scan — which always runs first — cannot
touch that key. -/
theorem c2_boolean_scan :
    (∀ (d : List (String × AttrSpec)) (a : String),
      alookup d a = none →
        alookup (applyBoolMatch d a) a = some AttrSpec.boolean) ∧
    (∀ (d : List (String × AttrSpec)) (a : String) (x : AttrSpec),
      alookup d a = some x → applyBoolMatch d a = d) ∧
    (∀ (sel : String) (d : List (String × AttrSpec)) (n : String),
      n ∈ boolScan sel.toList →
      (∀ p ∈ enumScan sel.toList, camelCase p.1 ≠ n) →
      alookup d n = none →
      alookup (scanSelector sel d) n = some AttrSpec.boolean) := by
  refine ⟨?_, ?_, ?_⟩
  · intro d a h
    exact applyBoolMatch_absent h
  · intro d a x h
    exact applyBoolMatch_present h
  · intro sel d n hb he hn
    simp only [scanSelector]
    refine boolFold_sets _ _ hb ?_
    rw [enumFold_lookup_other _ _ he]
    exact hn

/-- C2 witness at the selector `[data-x='a'][data-x][data-disabled]`:
`disabled` has a bare matcher only and is classified Boolean. -/
theorem c2_witness :
    ("disabled" ∈ boolScan "[data-x=\x27a\x27][data-x][data-disabled]".toList) ∧
    alookup (scanSelector "[data-x=\x27a\x27][data-x][data-disabled]" [])
      "disabled" = some AttrSpec.boolean :=
  ⟨by decide,
    c2_boolean_scan.2.2 "[data-x=\x27a\x27][data-x][data-disabled]" []
      "disabled" (by decide) (by decide) rfl⟩

/-! ### Claim C3 -/

/-- C3 counterexample: the boolean scan stores the matched attribute name
verbatim, without camelCasing: the bare matcher `[data-is-active]`
yields the stored data key `is-active`, which still contains a hyphen,
contradicting the claim that every stored key is camelCased. -/
theorem c3_counterexample :
    parseInput cexHyphenBool =
      Except.ok [("X", ⟨"", [("is-active", AttrSpec.boolean)]⟩)] ∧
    "is-active".toList.contains '-' = true := by
  constructor
  · have hv : visit cexHyphenBool =
        [("@scope", ["(.x)"]), ("rule", ["[data-is-active]"])] := by
      simp [cexHyphenBool, scopeNode, ruleNode, visit]
    rw [parseInput_def, hv]
    rfl
  · rfl

/-- C3 (amended): every key of the data map after scanning a selector is
either a pre-existing key, the camelCase conversion of an enum-matched
attribute name, or the verbatim (possibly hyphenated) name of a
bare-matched attribute — keys from the boolean scan are not camelCased. -/
theorem c3_key_provenance :
    ∀ (sel : String) (d : List (String × AttrSpec)) (k : String),
      k ∈ (scanSelector sel d).map Prod.fst →
        k ∈ d.map Prod.fst ∨
        (∃ p ∈ enumScan sel.toList, k = camelCase p.1) ∨
        k ∈ boolScan sel.toList := by
  intro sel d k h
  simp only [scanSelector] at h
  rcases keys_boolFold _ _ h with h1 | h1
  · rcases keys_enumFold _ _ h1 with h2 | h2
    · exact Or.inl h2
    · exact Or.inr (Or.inl h2)
  · exact Or.inr (Or.inr h1)

/-- C3 witness: the key `is-active` produced by scanning
`[data-is-active]` is traced back to the boolean scan, verbatim. -/
theorem c3_witness :
    ("is-active" ∈ (scanSelector "[data-is-active]" []).map Prod.fst) ∧
    ("is-active" ∈ ([] : List (String × AttrSpec)).map Prod.fst ∨
      (∃ p ∈ enumScan "[data-is-active]".toList,
        "is-active" = camelCase p.1) ∨
      "is-active" ∈ boolScan "[data-is-active]".toList) :=
  ⟨by decide, c3_key_provenance "[data-is-active]" [] "is-active" (by decide)⟩

/-! ### Claim C4 -/

/-- C4: after a successful pass, the keys of the Components map are the
distinct PascalCase conversions of the declared scope class names in
first-appearance order; on kebab-case class names the code's conversion
agrees with the claim's description (first letter and every letter
immediately following a hyphen capitalized, hyphens removed); and a
scope declaration overwrites an existing entry with a fresh component
(empty tag, empty data map) without error, the key keeping its
first-appearance position. -/
theorem c4_component_names :
    (∀ (nodes : List Element) (comps : Components),
      parseInput nodes = Except.ok comps →
        comps.map Prod.fst = dedupFirst (scopeNames (visit nodes))) ∧
    (∀ s : String, isKebab s.toList = true → pascalCase s = specPascal s) ∧
    (∀ (st : ParseState) (p : String) (ps : List String),
      parseStep st ("@scope", p :: ps) =
        Except.ok ⟨aupdate st.components (extractName p) ⟨"", []⟩,
          some (extractName p)⟩) ∧
    (∀ (l : Components) (k : String),
      alookup (aupdate l k ⟨"", []⟩) k = some ⟨"", []⟩ ∧
      (k ∈ l.map Prod.fst →
        (aupdate l k (⟨"", []⟩ : Component)).map Prod.fst =
          l.map Prod.fst)) := by
  refine ⟨?_, ?_, ?_, ?_⟩
  · intro nodes comps hp
    obtain ⟨st2, hrun, hcomps⟩ := parseInput_ok hp
    have hk := runNodes_keys (visit nodes) ⟨[], none⟩ st2 hrun
    rw [hcomps] at hk
    simpa [filterNew_nil_keys] using hk
  · intro s h
    exact pascalCase_eq_specPascal h
  · intro st p ps
    exact parseStep_scope st p ps
  · intro l k
    constructor
    · rw [alookup_aupdate]
      simp
    · intro hmem
      cases hcc : alookup l k with
      | none =>
          exact absurd ((alookup_eq_none_iff _ _).mp hcc) (by simp [hmem])
      | some c => exact aupdate_keys_of_some _ hcc

/-- C4 witness: scopes `my-button`, `other`, `my-button` again give keys
`MyButton`, `Other` in first-appearance order (the re-declared entry
fresh and in place), and on the kebab-case name `my-button` the two
conversions agree. -/
theorem c4_witness :
    parseInput exThreeScopes =
      Except.ok [("MyButton", ⟨"", []⟩), ("Other", ⟨"", []⟩)] ∧
    ([("MyButton", (⟨"", []⟩ : Component)),
      ("Other", ⟨"", []⟩)].map Prod.fst =
      dedupFirst (scopeNames (visit exThreeScopes))) ∧
    isKebab "my-button".toList = true ∧
    pascalCase "my-button" = specPascal "my-button" := by
  have hv : visit exThreeScopes = [("@scope", ["(.my-button)"]),
      ("@scope", ["(.other)"]), ("@scope", ["(.my-button)"])] := by
    simp [exThreeScopes, scopeNode, visit]
  have hres : parseInput exThreeScopes =
      Except.ok [("MyButton", ⟨"", []⟩), ("Other", ⟨"", []⟩)] := by
    rw [parseInput_def, hv]
    rfl
  refine ⟨hres, ?_, by decide, ?_⟩
  · exact c4_component_names.1 exThreeScopes
      [("MyButton", ⟨"", []⟩), ("Other", ⟨"", []⟩)] hres
  · exact c4_component_names.2.1 "my-button" (by decide)

/-! ### Claim C5 -/

/-- C5 counterexample: a rule node carrying an *empty* (but array-valued)
props list is kept by the reducer — `visit` filters on props being an
array, not on it being non-empty — contradicting the claim that exactly
the recognized nodes with a non-empty props list are returned. -/
theorem c5_counterexample : visit cexEmptyProps = [("rule", [])] := by
  simp [cexEmptyProps, visit]

/-- C5 (amended): `visit` returns, in pre-order document order (self
before children, siblings left to right), exactly the `{type, props}`
pairs of the nodes whose type is `@scope` or `rule` and whose props is
present (array-valued, possibly empty), and it descends into the
children of every node, including nodes that are themselves filtered
out or unrecognized. -/
theorem c5_visit_preorder :
    ∀ ns : List Element, visit ns = (preorder ns).filterMap keepNode := by
  intro ns
  exact visit_eq_filterMap_preorder ns

/-! ### Claim C6 -/

/-- C6 counterexample: for the selector `a:scope-b:scope`, which ends
with `:scope`, the code removes the *first* occurrence of `:scope`: the
tag becomes `a-b:scope`, not the suffix-stripped `a:scope-b` the claim
requires. -/
theorem c6_counterexample :
    parseInput cexTagTwice = Except.ok [("X", ⟨"a-b:scope", []⟩)] ∧
    (("a-b:scope" : String) == "a:scope-b") = false := by
  constructor
  · have hv : visit cexTagTwice =
        [("@scope", ["(.x)"]), ("rule", ["a:scope-b:scope"])] := by
      simp [cexTagTwice, scopeNode, ruleNode, visit]
    rw [parseInput_def, hv]
    rfl
  · rfl

/-- C6 (amended): a rule whose selector ends with `:scope`, processed
under a registered current component, sets the component's tag to the
selector with the *first* occurrence of `:scope` removed (which equals
suffix removal whenever `:scope` occurs only as the suffix), leaves the
data map unchanged, and performs no enum or boolean scanning on that
selector. -/
theorem c6_tag_binding :
    ∀ (st : ParseState) (nm : String) (comp : Component) (p : String)
      (ps : List String),
      st.current = some nm → alookup st.components nm = some comp →
      (":scope".toList).isSuffixOf p.toList = true →
      parseStep st ("rule", p :: ps) =
        Except.ok ⟨aupdate st.components nm
          ⟨⟨removeFirst ":scope".toList p.toList⟩, comp.data⟩, some nm⟩ := by
  intro st nm comp p ps hc hl hsuf
  exact parseStep_rule_tag hc hl ps hsuf

/-- C6 witness: after `@scope (.x)`, the selector `button:scope` binds
the tag `button` and leaves the data map untouched. -/
theorem c6_witness :
    parseStep ⟨[("X", ⟨"", []⟩)], some "X"⟩ ("rule", ["button:scope"]) =
      Except.ok ⟨[("X", ⟨"button", []⟩)], some "X"⟩ := by
  have h := c6_tag_binding ⟨[("X", ⟨"", []⟩)], some "X"⟩ "X" ⟨"", []⟩
    "button:scope" [] rfl rfl (by decide)
  rw [h]
  rfl

/-! ### Claim C7 -/

/-- C7: the multi-component builder fails — with the scope
`ParseFailure` — exactly when some scope node in the flattened list has
no first prop string; the single-component variant fails exactly when
no tag binding (a nonempty word-character run immediately followed by
`:scope`) occurs anywhere in the input; and on a parse failure the file
driver propagates the error and produces no output text, because it
parses before it renders or writes. -/
theorem c7_failure_conditions :
    (∀ nodes : List Element,
      (∃ e, parseInput nodes = Except.error e) ↔
        ∃ p ∈ visit nodes, p.1 = "@scope" ∧ p.2 = []) ∧
    (∀ s : String,
      (∃ e, singleParseTag s = Except.error e) ↔
        ¬ ∃ pre t post, s.toList = pre ++ t ++ ":scope".toList ++ post ∧
          t ≠ [] ∧ ∀ ch ∈ t, isWordChar ch = true) ∧
    (∀ (nodes : List Element) (m e : String),
      parseInput nodes = Except.error e →
        createFileOutput nodes m = Except.error e) := by
  refine ⟨?_, ?_, ?_⟩
  · intro nodes
    rw [parseInput_error_iff]
    exact runNodes_error_iff (visit nodes) ⟨[], none⟩
  · intro s
    constructor
    · intro ⟨e, he⟩
      rw [← findTag_none_iff]
      unfold singleParseTag at he
      cases hf : findTag s.toList with
      | none => rfl
      | some t =>
          rw [hf] at he
          cases he
    · intro h
      have hf : findTag s.toList = none := (findTag_none_iff _).mpr h
      exact ⟨"Could not parse tag", by unfold singleParseTag; rw [hf]⟩
  · intro nodes m e he
    unfold createFileOutput
    rw [he]

/-- C7 witness: a scope node without a first prop makes the builder and
the file driver fail, and an input without any `:scope` tag binding
makes the single-component variant fail. -/
theorem c7_witness :
    (∃ e, parseInput exBadScope = Except.error e) ∧
    createFileOutput exBadScope "m" = Except.error scopeErr ∧
    (∃ e, singleParseTag "p \x7b color: red \x7d" = Except.error e) := by
  have hv : visit exBadScope = [("@scope", [])] := by
    simp [exBadScope, visit]
  have herr : parseInput exBadScope = Except.error scopeErr := by
    rw [parseInput_def, hv]
    rfl
  refine ⟨(c7_failure_conditions.1 exBadScope).mpr ?_, ?_, ?_⟩
  · refine ⟨("@scope", []), ?_, rfl, rfl⟩
    rw [hv]
    exact List.mem_singleton.mpr rfl
  · exact c7_failure_conditions.2.2 exBadScope "m" scopeErr herr
  · refine (c7_failure_conditions.2.1 "p \x7b color: red \x7d").mpr ?_
    rw [← findTag_none_iff]
    rfl

/-! ### Claim C8 -/

/-- C8: a rule node met when no current component is set, or one whose
first prop string is absent, is skipped silently: no error is raised
and the whole state — the components map and the cursor — is returned
unchanged. -/
theorem c8_rule_skipped :
    ∀ (st : ParseState) (props : List String),
      st.current = none ∨ props = [] →
        parseStep st ("rule", props) = Except.ok st := by
  intro st props h
  rcases h with h | h
  · exact parseStep_rule_nocurrent h props
  · subst h
    exact parseStep_rule_noprop st

/-- C8 witness: a rule appearing before any scope declaration leaves the
initial state untouched. -/
theorem c8_witness :
    parseStep ⟨[], none⟩ ("rule", ["[data-x]"]) = Except.ok ⟨[], none⟩ :=
  c8_rule_skipped ⟨[], none⟩ ["[data-x]"] (Or.inl rfl)

/-! ### Claim C9 -/

set_option maxRecDepth 8192 in
/-- C9: `render` produces exactly one generated-file banner line, then
the side-effecting import of `./<module-name>.mist.css`, then one
component definition per map entry in map iteration order, joined and
trimmed; and on the data `{size: Enum [sm, lg], disabled: Boolean}` the
generated source contains the prop types `size?: 'sm' | 'lg'` and
`disabled?: boolean`. -/
theorem c9_render_layout :
    (∀ (name : String) (components : Components),
      render name components =
        "// Generated by MistCSS, do not modify\n" ++
        ("import \x27./" ++ name ++ ".mist.css\x27\n") ++ "\n" ++
        jsTrim (String.intercalate "\n"
          (components.map (fun p => renderComponent components p.1))) ++
        "\n") ∧
    containsSub "size?: \x27sm\x27 | \x27lg\x27".toList
      (render "m" demoComponents).toList = true ∧
    containsSub "disabled?: boolean".toList
      (render "m" demoComponents).toList = true := by
  refine ⟨?_, ?_, ?_⟩
  · intro name components
    unfold render
    rw [show ("// Generated by MistCSS, do not modify\nimport \x27./" :
        String) = "// Generated by MistCSS, do not modify\n" ++
        "import \x27./" from rfl,
      show (".mist.css\x27\n\n" : String) = ".mist.css\x27\n" ++ "\n"
        from rfl]
    simp only [String.append_assoc]
  · rfl
  · rfl

/-! ### Claim C10 -/

/-- C10: whenever the cursor is set it names a registered component: the
invariant holds in the initial state, is preserved by every successful
step, and holds after every successful run from the initial state — so
the guard that would skip a rule node naming an unregistered component
is unreachable, and a rule node seen with the cursor set is never
ignored for that reason. -/
theorem c10_cursor_registered :
    CurrentRegistered ⟨[], none⟩ ∧
    (∀ (st : ParseState) (n : String × List String) (st2 : ParseState),
      CurrentRegistered st → parseStep st n = Except.ok st2 →
        CurrentRegistered st2) ∧
    (∀ (nodes : List Element) (st2 : ParseState),
      runNodes ⟨[], none⟩ (visit nodes) = Except.ok st2 →
        ∀ nm, st2.current = some nm →
          alookup st2.components nm ≠ none) := by
  refine ⟨?_, ?_, ?_⟩
  · intro nm h
    cases h
  · intro st n st2 h hp
    exact currentRegistered_parseStep h hp
  · intro nodes st2 hr
    exact currentRegistered_runNodes (visit nodes) ⟨[], none⟩ st2
      (by intro nm h; cases h) hr

/-- C10 witness: after processing `@scope (.x)` the cursor holds `X`,
which is a key of the map. -/
theorem c10_witness :
    alookup [("X", (⟨"", []⟩ : Component))] "X" ≠ none := by
  have hv : visit [scopeNode "(.x)"] = [("@scope", ["(.x)"])] := by
    simp [scopeNode, visit]
  have hr : runNodes ⟨[], none⟩ (visit [scopeNode "(.x)"]) =
      Except.ok ⟨[("X", ⟨"", []⟩)], some "X"⟩ := by
    rw [hv]
    rfl
  exact c10_cursor_registered.2.2 [scopeNode "(.x)"]
    ⟨[("X", ⟨"", []⟩)], some "X"⟩ hr "X" rfl

end Mist
